import Mathlib

/-!
Verification of the ef80escape transcoder (src/src/lib.rs).

The development shallowly embeds the two public Rust functions
`bytes_to_str` and `str_to_bytes`, their helper `extend_escaped_utf8`
and the shared predicate `need_escape`.  Byte slices are modelled as
`List Nat` whose elements are below 256; the UTF-8 validation performed
by `std::str::from_utf8` is modelled by `validUpTo`, which returns the
length of the longest prefix that is a concatenation of well-formed
UTF-8 scalar encodings (this is exactly `Utf8Error::valid_up_to`, and
the whole input is valid iff `validUpTo` equals its length).
-/

/-- Model of `need_escape` (src/src/lib.rs): true iff the bytes
`[0xEE, b1, b2]` match the marker codepoint or the reserved band. -/
def need_escape (b1 b2 : Nat) : Bool :=
  (b1 == 0xbc && b2 == 0x80) ||
    ((b1 ||| 1) == 0xbf && decide (0x80 ≤ b2) && decide (b2 ≤ 0xbf))

/-- UTF-8 continuation byte test: `0x80..=0xBF`. -/
def isCont (b : Nat) : Bool := decide (0x80 ≤ b) && decide (b ≤ 0xbf)

/-- Allowed second byte of a 3-byte UTF-8 sequence with lead byte `b`,
following the table used by Rust core UTF-8 validation. -/
def utf8Cont3 (b b1 : Nat) : Bool :=
  if b = 0xe0 then decide (0xa0 ≤ b1) && decide (b1 ≤ 0xbf)
  else if b = 0xed then decide (0x80 ≤ b1) && decide (b1 ≤ 0x9f)
  else isCont b1

/-- Allowed second byte of a 4-byte UTF-8 sequence with lead byte `b`,
following the table used by Rust core UTF-8 validation. -/
def utf8Cont4 (b b1 : Nat) : Bool :=
  if b = 0xf0 then decide (0x90 ≤ b1) && decide (b1 ≤ 0xbf)
  else if b = 0xf4 then decide (0x80 ≤ b1) && decide (b1 ≤ 0x8f)
  else isCont b1

/-- Model of `std::str::from_utf8`: the number of bytes in the longest
prefix of `l` that is a concatenation of complete well-formed UTF-8
scalar sequences.  `from_utf8` succeeds iff `validUpTo l = l.length`;
on failure, `valid_up_to()` equals `validUpTo l`. -/
def validUpTo : List Nat → Nat
  | [] => 0
  | [b] => if b < 0x80 then 1 else 0
  | [b, b1] =>
    if b < 0x80 then validUpTo [b1] + 1
    else if 0xc2 ≤ b ∧ b ≤ 0xdf then (if isCont b1 then 2 else 0)
    else 0
  | [b, b1, b2] =>
    if b < 0x80 then validUpTo [b1, b2] + 1
    else if 0xc2 ≤ b ∧ b ≤ 0xdf then (if isCont b1 then validUpTo [b2] + 2 else 0)
    else if 0xe0 ≤ b ∧ b ≤ 0xef then
      (if utf8Cont3 b b1 && isCont b2 then 3 else 0)
    else 0
  | b :: b1 :: b2 :: b3 :: rest =>
    if b < 0x80 then validUpTo (b1 :: b2 :: b3 :: rest) + 1
    else if 0xc2 ≤ b ∧ b ≤ 0xdf then
      (if isCont b1 then validUpTo (b2 :: b3 :: rest) + 2 else 0)
    else if 0xe0 ≤ b ∧ b ≤ 0xef then
      (if utf8Cont3 b b1 && isCont b2 then validUpTo (b3 :: rest) + 3 else 0)
    else if 0xf0 ≤ b ∧ b ≤ 0xf4 then
      (if utf8Cont4 b b1 && isCont b2 && isCont b3 then validUpTo rest + 4 else 0)
    else 0

/-- Body of the loop of `extend_escaped_utf8` (src/src/lib.rs): walk the
well-formed UTF-8 bytes; before every `0xEE` whose two following bytes
satisfy `need_escape`, push the escape marker `EE BC 80` (UTF-8 of
U+EF00); every byte itself is copied unchanged. -/
def escapeUtf8 : List Nat → List Nat
  | [] => []
  | b :: rest =>
    (if b = 0xee then
      match rest with
      | b1 :: b2 :: _ => if need_escape b1 b2 then [0xee, 0xbc, 0x80] else []
      | _ => []
    else []) ++ b :: escapeUtf8 rest

/-- Model of `extend_escaped_utf8(utf8_bytes, out)`: appends the escaped
form of `utf8_bytes` to the accumulator `out`. -/
def extend_escaped_utf8 (utf8_bytes out : List Nat) : List Nat :=
  out ++ escapeUtf8 utf8_bytes

/-- Model of the main loop of `bytes_to_str` (src/src/lib.rs), carrying
the suffix still to process (`rest`) and the accumulated output bytes
(`result`).  On a fully valid suffix it takes the zero-copy path when
nothing was accumulated and no `0xEE` occurs, otherwise appends the
escaped suffix; on a UTF-8 failure at offset `l` it appends the escaped
valid prefix and the 3-byte reserved-band encoding
`EE (0xBE + ((b ^ 128) >> 6)) ((b | 0x40) ^ 0x40)` of the failing byte
`b`, then continues after that byte. -/
def bytes_to_str_loop (rest result : List Nat) : List Nat :=
  if h : rest = [] then result
  else if validUpTo rest = rest.length then
    if result = [] ∧ rest.contains 0xee = false then rest
    else extend_escaped_utf8 rest result
  else
    bytes_to_str_loop (rest.drop (validUpTo rest + 1))
      (extend_escaped_utf8 (rest.take (validUpTo rest)) result ++
        [0xee, 0xbe + ((rest.getD (validUpTo rest) 0 ^^^ 128) >>> 6),
          (rest.getD (validUpTo rest) 0 ||| 0x40) ^^^ 0x40])
termination_by rest.length
decreasing_by
  simp only [List.length_drop]
  have hp : 0 < rest.length := List.length_pos.mpr h
  omega

/-- Model of `bytes_to_str` (src/src/lib.rs): the UTF-8 bytes of the
returned string (the `Cow` distinction is value-irrelevant). -/
def bytes_to_str (data : List Nat) : List Nat :=
  bytes_to_str_loop data []

/-- Accumulator-free form of the `bytes_to_str` loop used in proofs;
`bytes_to_str_loop rest result = result ++ bytes_to_str_go rest`. -/
def bytes_to_str_go (rest : List Nat) : List Nat :=
  if h : rest = [] then []
  else if validUpTo rest = rest.length then escapeUtf8 rest
  else
    escapeUtf8 (rest.take (validUpTo rest)) ++
      [0xee, 0xbe + ((rest.getD (validUpTo rest) 0 ^^^ 128) >>> 6),
        (rest.getD (validUpTo rest) 0 ||| 0x40) ^^^ 0x40] ++
      bytes_to_str_go (rest.drop (validUpTo rest + 1))
termination_by rest.length
decreasing_by
  simp only [List.length_drop]
  have hp : 0 < rest.length := List.length_pos.mpr h
  omega

/-- Model of the loop of `str_to_bytes` (src/src/lib.rs): two-state scan
(`escaped` flag) over the bytes of the input string.  At an `0xEE` whose
two following bytes satisfy `need_escape`: the marker itself (second
byte `0xBC`) in normal state sets the flag and emits nothing; in escaped
state the three bytes are emitted verbatim; otherwise the reserved-band
codepoint is mapped back to the byte `((b1 & 3) << 6) | (b2 & 63)`.
Every other byte is copied and resets the flag. -/
def str_to_bytes_go : Bool → List Nat → List Nat
  | _, [] => []
  | escaped, b :: rest =>
    let tailRes := str_to_bytes_go false rest
    match rest with
    | b1 :: b2 :: rest2 =>
      if b = 0xee ∧ need_escape b1 b2 = true then
        if b1 = 0xbc ∧ escaped = false then str_to_bytes_go true rest2
        else if escaped = true then
          b :: b1 :: b2 :: str_to_bytes_go false rest2
        else (((b1 &&& 3) <<< 6) ||| (b2 &&& 63)) :: str_to_bytes_go false rest2
      else b :: tailRes
    | _ => b :: tailRes
termination_by structural _ l => l

/-- Model of `str_to_bytes` (src/src/lib.rs): zero-copy when the string
contains no `0xEE` byte, otherwise the two-state scan. -/
def str_to_bytes (data : List Nat) : List Nat :=
  if data.contains 0xee = false then data
  else str_to_bytes_go false data

/-- The 3-byte UTF-8 encoding of a codepoint in `U+0800..=U+FFFF`. -/
def utf8Encode3 (c : Nat) : List Nat :=
  [0xe0 ||| (c >>> 12), 0x80 ||| ((c >>> 6) &&& 0x3f), 0x80 ||| (c &&& 0x3f)]

/-- The codepoint whose 3-byte UTF-8 encoding is `[0xEE, b1, b2]`. -/
def utf8Decode3 (b1 b2 : Nat) : Nat :=
  ((0xee &&& 0xf) <<< 12) ||| ((b1 &&& 0x3f) <<< 6) ||| (b2 &&& 0x3f)

/-- True iff the byte list contains an occurrence of `0xEE` followed by
two bytes satisfying `need_escape` — i.e. (for well-formed UTF-8 input)
iff it contains the marker codepoint U+EF00 or a reserved-band codepoint
U+EF80..U+EFFF. -/
def hasEscapePattern : List Nat → Bool
  | [] => false
  | b :: rest =>
    ((b == 0xee) && need_escape (rest.getD 0 0) (rest.getD 1 0)) ||
      hasEscapePattern rest

/-- A byte list that is a concatenation of complete well-formed UTF-8
scalar sequences, mirroring the branch structure of `validUpTo`. -/
inductive Utf8Chars : List Nat → Prop
  | nil : Utf8Chars []
  | one {b : Nat} {rest : List Nat} :
      b < 0x80 → Utf8Chars rest → Utf8Chars (b :: rest)
  | two {b b1 : Nat} {rest : List Nat} :
      0xc2 ≤ b → b ≤ 0xdf → isCont b1 = true → Utf8Chars rest →
      Utf8Chars (b :: b1 :: rest)
  | three {b b1 b2 : Nat} {rest : List Nat} :
      0xe0 ≤ b → b ≤ 0xef → utf8Cont3 b b1 = true → isCont b2 = true →
      Utf8Chars rest → Utf8Chars (b :: b1 :: b2 :: rest)
  | four {b b1 b2 b3 : Nat} {rest : List Nat} :
      0xf0 ≤ b → b ≤ 0xf4 → utf8Cont4 b b1 = true → isCont b2 = true →
      isCont b3 = true → Utf8Chars rest → Utf8Chars (b :: b1 :: b2 :: b3 :: rest)

/-! ### Basic facts about the predicates and the escape scanner -/

theorem need_escape_iff {b1 b2 : Nat} :
    need_escape b1 b2 = true ↔
      (b1 = 0xbc ∧ b2 = 0x80) ∨ (b1 ||| 1 = 0xbf ∧ 0x80 ≤ b2 ∧ b2 ≤ 0xbf) := by
  simp [need_escape, and_assoc]

theorem isCont_iff {b : Nat} : isCont b = true ↔ 0x80 ≤ b ∧ b ≤ 0xbf := by
  simp [isCont]

theorem need_escape_ne_ee {b1 b2 : Nat} (h : need_escape b1 b2 = true) :
    b1 ≠ 0xee ∧ b2 ≠ 0xee := by
  rcases need_escape_iff.mp h with ⟨h1, h2⟩ | ⟨h1, h2, h3⟩
  · omega
  · refine ⟨fun hc => ?_, by omega⟩
    rw [hc] at h1
    exact absurd h1 (by decide)

theorem utf8Cont3_cont {b b1 : Nat} (h : utf8Cont3 b b1 = true) :
    0x80 ≤ b1 ∧ b1 ≤ 0xbf := by
  unfold utf8Cont3 at h
  split_ifs at h <;>
    (simp only [isCont, Bool.and_eq_true, decide_eq_true_eq] at h; omega)

theorem utf8Cont4_cont {b b1 : Nat} (h : utf8Cont4 b b1 = true) :
    0x80 ≤ b1 ∧ b1 ≤ 0xbf := by
  unfold utf8Cont4 at h
  split_ifs at h <;>
    (simp only [isCont, Bool.and_eq_true, decide_eq_true_eq] at h; omega)

theorem escapeUtf8_cons_ne {b : Nat} (h : b ≠ 0xee) (l : List Nat) :
    escapeUtf8 (b :: l) = b :: escapeUtf8 l := by
  simp [escapeUtf8, h]

theorem escapeUtf8_cons_ee (b1 b2 : Nat) (l : List Nat) :
    escapeUtf8 (0xee :: b1 :: b2 :: l) =
      (if need_escape b1 b2 then [0xee, 0xbc, 0x80] else []) ++
        0xee :: escapeUtf8 (b1 :: b2 :: l) := rfl

theorem escapeUtf8_eq_self {l : List Nat} (h : ∀ x ∈ l, x ≠ 0xee) :
    escapeUtf8 l = l := by
  induction l with
  | nil => rfl
  | cons b rest ih =>
    rw [escapeUtf8_cons_ne (h b (by simp)) rest,
      ih (fun x hx => h x (List.mem_cons_of_mem b hx))]

theorem not_mem_of_contains_false {l : List Nat} {a : Nat}
    (h : l.contains a = false) : a ∉ l := by
  induction l with
  | nil => simp
  | cons b rest ih =>
    simp only [List.contains_cons, Bool.or_eq_false_iff] at h
    simp only [List.mem_cons, not_or]
    exact ⟨by simpa using h.1, ih h.2⟩

theorem str_go_cons_ne {b : Nat} (h : b ≠ 0xee) (e : Bool) (l : List Nat) :
    str_to_bytes_go e (b :: l) = b :: str_to_bytes_go false l := by
  match l with
  | [] => simp [str_to_bytes_go, h]
  | [b1] => simp [str_to_bytes_go, h]
  | b1 :: b2 :: rest2 => simp [str_to_bytes_go, h]

theorem str_go_marker (l : List Nat) :
    str_to_bytes_go false (0xee :: 0xbc :: 0x80 :: l) = str_to_bytes_go true l := by
  simp [str_to_bytes_go, need_escape]

theorem str_go_esc_true {b1 b2 : Nat} (h : need_escape b1 b2 = true) (l : List Nat) :
    str_to_bytes_go true (0xee :: b1 :: b2 :: l) =
      0xee :: b1 :: b2 :: str_to_bytes_go false l := by
  simp [str_to_bytes_go, h]

theorem str_go_band {b1 b2 : Nat} (h : need_escape b1 b2 = true) (hb1 : b1 ≠ 0xbc)
    (l : List Nat) :
    str_to_bytes_go false (0xee :: b1 :: b2 :: l) =
      (((b1 &&& 3) <<< 6) ||| (b2 &&& 63)) :: str_to_bytes_go false l := by
  simp [str_to_bytes_go, h, hb1]

theorem str_go_ee_no_escape {b1 b2 : Nat} (h : need_escape b1 b2 = false)
    (e : Bool) (l : List Nat) :
    str_to_bytes_go e (0xee :: b1 :: b2 :: l) =
      0xee :: str_to_bytes_go false (b1 :: b2 :: l) := by
  simp [str_to_bytes_go, h]

theorem str_go_eq_self {l : List Nat} (e : Bool) (h : ∀ x ∈ l, x ≠ 0xee) :
    str_to_bytes_go e l = l := by
  induction l generalizing e with
  | nil => rfl
  | cons b rest ih =>
    rw [str_go_cons_ne (h b (by simp)) e rest,
      ih false (fun x hx => h x (List.mem_cons_of_mem b hx))]

/-! ### `validUpTo` and `Utf8Chars` -/

theorem Utf8Chars.append {l1 l2 : List Nat} (h1 : Utf8Chars l1)
    (h2 : Utf8Chars l2) : Utf8Chars (l1 ++ l2) := by
  induction h1 with
  | nil => simpa
  | one hb _ ih => exact Utf8Chars.one hb ih
  | two hb1 hb2 hc _ ih => exact Utf8Chars.two hb1 hb2 hc ih
  | three hb1 hb2 hc1 hc2 _ ih => exact Utf8Chars.three hb1 hb2 hc1 hc2 ih
  | four hb1 hb2 hc1 hc2 hc3 _ ih => exact Utf8Chars.four hb1 hb2 hc1 hc2 hc3 ih

theorem validUpTo_ascii {b : Nat} (hb : b < 0x80) (rest : List Nat) :
    validUpTo (b :: rest) = validUpTo rest + 1 := by
  match rest with
  | [] => simp [validUpTo, hb]
  | [b1] => simp [validUpTo, hb]
  | [b1, b2] => simp [validUpTo, hb]
  | b1 :: b2 :: b3 :: r => simp [validUpTo, hb]

theorem validUpTo_two {b b1 : Nat} (hb1 : 0xc2 ≤ b) (hb2 : b ≤ 0xdf)
    (hc : isCont b1 = true) (rest : List Nat) :
    validUpTo (b :: b1 :: rest) = validUpTo rest + 2 := by
  have hnb : ¬ b < 0x80 := by omega
  match rest with
  | [] => simp [validUpTo, hnb, hb1, hb2, hc]
  | [b2] => simp [validUpTo, hnb, hb1, hb2, hc]
  | b2 :: b3 :: r => simp [validUpTo, hnb, hb1, hb2, hc]

theorem validUpTo_three {b b1 b2 : Nat} (hb1 : 0xe0 ≤ b) (hb2 : b ≤ 0xef)
    (hc1 : utf8Cont3 b b1 = true) (hc2 : isCont b2 = true) (rest : List Nat) :
    validUpTo (b :: b1 :: b2 :: rest) = validUpTo rest + 3 := by
  have hnb : ¬ b < 0x80 := by omega
  have hn2 : ¬ (0xc2 ≤ b ∧ b ≤ 0xdf) := by omega
  match rest with
  | [] => simp [validUpTo, hnb, hn2, hb1, hb2, hc1, hc2]
  | b3 :: r => simp [validUpTo, hnb, hn2, hb1, hb2, hc1, hc2]

theorem validUpTo_four {b b1 b2 b3 : Nat} (hb1 : 0xf0 ≤ b) (hb2 : b ≤ 0xf4)
    (hc1 : utf8Cont4 b b1 = true) (hc2 : isCont b2 = true) (hc3 : isCont b3 = true)
    (rest : List Nat) :
    validUpTo (b :: b1 :: b2 :: b3 :: rest) = validUpTo rest + 4 := by
  have hnb : ¬ b < 0x80 := by omega
  have hn2 : ¬ (0xc2 ≤ b ∧ b ≤ 0xdf) := by omega
  have hn3 : ¬ (0xe0 ≤ b ∧ b ≤ 0xef) := by omega
  simp [validUpTo, hnb, hn2, hn3, hb1, hb2, hc1, hc2, hc3]

theorem Utf8Chars.validUpTo_eq {l : List Nat} (h : Utf8Chars l) :
    validUpTo l = l.length := by
  induction h with
  | nil => rfl
  | @one b rest hb _ ih =>
    rw [validUpTo_ascii hb, ih]
    simp only [List.length_cons]
  | @two b b1 rest hb1 hb2 hc _ ih =>
    rw [validUpTo_two hb1 hb2 hc, ih]
    simp only [List.length_cons]
  | @three b b1 b2 rest hb1 hb2 hc1 hc2 _ ih =>
    rw [validUpTo_three hb1 hb2 hc1 hc2, ih]
    simp only [List.length_cons]
  | @four b b1 b2 b3 rest hb1 hb2 hc1 hc2 hc3 _ ih =>
    rw [validUpTo_four hb1 hb2 hc1 hc2 hc3, ih]
    simp only [List.length_cons]

/-- The three facts about `validUpTo` used throughout: it never exceeds
the length, the prefix it measures is a concatenation of well-formed
UTF-8 scalar sequences, and the byte at the failure offset (when there
is one) is at least `0x80`. -/
def ValidSpec (l : List Nat) : Prop :=
  validUpTo l ≤ l.length ∧ Utf8Chars (l.take (validUpTo l)) ∧
    (validUpTo l < l.length → 0x80 ≤ l.getD (validUpTo l) 0)

theorem validSpec_nil : ValidSpec [] :=
  ⟨by simp [validUpTo], by simpa [validUpTo] using Utf8Chars.nil, by simp [validUpTo]⟩

theorem validSpec_zero {b : Nat} {rest : List Nat} (hb : 0x80 ≤ b)
    (h0 : validUpTo (b :: rest) = 0) : ValidSpec (b :: rest) := by
  refine ⟨by simp [h0], by simpa [h0] using Utf8Chars.nil, ?_⟩
  intro _
  simpa [h0] using hb

theorem validSpec_ascii {b : Nat} {rest : List Nat} (hb : b < 0x80)
    (ih : ValidSpec rest) : ValidSpec (b :: rest) := by
  obtain ⟨ih1, ih2, ih3⟩ := ih
  rw [ValidSpec, validUpTo_ascii hb]
  refine ⟨by simp only [List.length_cons]; omega, ?_, ?_⟩
  · simpa only [List.take_succ_cons] using Utf8Chars.one hb ih2
  · intro hlt
    rw [List.getD_cons_succ]
    exact ih3 (by simp only [List.length_cons] at hlt; omega)

theorem validSpec_two {b b1 : Nat} {rest : List Nat} (hb1 : 0xc2 ≤ b)
    (hb2 : b ≤ 0xdf) (hc : isCont b1 = true) (ih : ValidSpec rest) :
    ValidSpec (b :: b1 :: rest) := by
  obtain ⟨ih1, ih2, ih3⟩ := ih
  rw [ValidSpec, validUpTo_two hb1 hb2 hc]
  refine ⟨by simp only [List.length_cons]; omega, ?_, ?_⟩
  · rw [show validUpTo rest + 2 = validUpTo rest + 1 + 1 from rfl,
      List.take_succ_cons, List.take_succ_cons]
    exact Utf8Chars.two hb1 hb2 hc ih2
  · intro hlt
    rw [show validUpTo rest + 2 = validUpTo rest + 1 + 1 from rfl,
      List.getD_cons_succ, List.getD_cons_succ]
    exact ih3 (by simp only [List.length_cons] at hlt; omega)

theorem validSpec_three {b b1 b2 : Nat} {rest : List Nat} (hb1 : 0xe0 ≤ b)
    (hb2 : b ≤ 0xef) (hc1 : utf8Cont3 b b1 = true) (hc2 : isCont b2 = true)
    (ih : ValidSpec rest) : ValidSpec (b :: b1 :: b2 :: rest) := by
  obtain ⟨ih1, ih2, ih3⟩ := ih
  rw [ValidSpec, validUpTo_three hb1 hb2 hc1 hc2]
  refine ⟨by simp only [List.length_cons]; omega, ?_, ?_⟩
  · rw [show validUpTo rest + 3 = validUpTo rest + 1 + 1 + 1 from rfl,
      List.take_succ_cons, List.take_succ_cons, List.take_succ_cons]
    exact Utf8Chars.three hb1 hb2 hc1 hc2 ih2
  · intro hlt
    rw [show validUpTo rest + 3 = validUpTo rest + 1 + 1 + 1 from rfl,
      List.getD_cons_succ, List.getD_cons_succ, List.getD_cons_succ]
    exact ih3 (by simp only [List.length_cons] at hlt; omega)

theorem validSpec_four {b b1 b2 b3 : Nat} {rest : List Nat} (hb1 : 0xf0 ≤ b)
    (hb2 : b ≤ 0xf4) (hc1 : utf8Cont4 b b1 = true) (hc2 : isCont b2 = true)
    (hc3 : isCont b3 = true) (ih : ValidSpec rest) :
    ValidSpec (b :: b1 :: b2 :: b3 :: rest) := by
  obtain ⟨ih1, ih2, ih3⟩ := ih
  rw [ValidSpec, validUpTo_four hb1 hb2 hc1 hc2 hc3]
  refine ⟨by simp only [List.length_cons]; omega, ?_, ?_⟩
  · rw [show validUpTo rest + 4 = validUpTo rest + 1 + 1 + 1 + 1 from rfl,
      List.take_succ_cons, List.take_succ_cons, List.take_succ_cons,
      List.take_succ_cons]
    exact Utf8Chars.four hb1 hb2 hc1 hc2 hc3 ih2
  · intro hlt
    rw [show validUpTo rest + 4 = validUpTo rest + 1 + 1 + 1 + 1 from rfl,
      List.getD_cons_succ, List.getD_cons_succ, List.getD_cons_succ,
      List.getD_cons_succ]
    exact ih3 (by simp only [List.length_cons] at hlt; omega)

theorem validUpTo_spec (l : List Nat) : ValidSpec l := by
  match l with
  | [] => exact validSpec_nil
  | b :: rest =>
    by_cases h1 : b < 0x80
    · exact validSpec_ascii h1 (validUpTo_spec rest)
    · by_cases h2 : 0xc2 ≤ b ∧ b ≤ 0xdf
      · match rest with
        | [] => exact validSpec_zero (by omega) (by simp [validUpTo, h1])
        | b1 :: rest1 =>
          by_cases h3 : isCont b1 = true
          · exact validSpec_two h2.1 h2.2 h3 (validUpTo_spec rest1)
          · refine validSpec_zero (by omega) ?_
            match rest1 with
            | [] => simp [validUpTo, h1, h2, h3]
            | [c2] => simp [validUpTo, h1, h2, h3]
            | c2 :: c3 :: r => simp [validUpTo, h1, h2, h3]
      · by_cases h4 : 0xe0 ≤ b ∧ b ≤ 0xef
        · match rest with
          | [] => exact validSpec_zero (by omega) (by simp [validUpTo, h1])
          | [b1] => exact validSpec_zero (by omega) (by simp [validUpTo, h1, h2])
          | b1 :: b2 :: rest2 =>
            by_cases h5 : (utf8Cont3 b b1 && isCont b2) = true
            · simp only [Bool.and_eq_true] at h5
              exact validSpec_three h4.1 h4.2 h5.1 h5.2 (validUpTo_spec rest2)
            · refine validSpec_zero (by omega) ?_
              match rest2 with
              | [] => simp [validUpTo, h1, h2, h4, h5]
              | c3 :: r => simp [validUpTo, h1, h2, h4, h5]
        · by_cases h6 : 0xf0 ≤ b ∧ b ≤ 0xf4
          · match rest with
            | [] => exact validSpec_zero (by omega) (by simp [validUpTo, h1])
            | [b1] => exact validSpec_zero (by omega) (by simp [validUpTo, h1, h2])
            | [b1, b2] =>
              exact validSpec_zero (by omega) (by simp [validUpTo, h1, h2, h4])
            | b1 :: b2 :: b3 :: rest3 =>
              by_cases h7 : (utf8Cont4 b b1 && isCont b2 && isCont b3) = true
              · simp only [Bool.and_eq_true] at h7
                exact validSpec_four h6.1 h6.2 h7.1.1 h7.1.2 h7.2 (validUpTo_spec rest3)
              · refine validSpec_zero (by omega) ?_
                simp [validUpTo, h1, h2, h4, h6, h7]
          · refine validSpec_zero (by omega) ?_
            match rest with
            | [] => simp [validUpTo, h1]
            | [b1] => simp [validUpTo, h1, h2]
            | [b1, b2] => simp [validUpTo, h1, h2, h4]
            | b1 :: b2 :: b3 :: r => simp [validUpTo, h1, h2, h4, h6]
termination_by l.length
decreasing_by all_goals simp only [List.length_cons]; omega

theorem validUpTo_le (l : List Nat) : validUpTo l ≤ l.length :=
  (validUpTo_spec l).1

theorem utf8Chars_take (l : List Nat) : Utf8Chars (l.take (validUpTo l)) :=
  (validUpTo_spec l).2.1

theorem validUpTo_getD {l : List Nat} (h : validUpTo l < l.length) :
    0x80 ≤ l.getD (validUpTo l) 0 :=
  (validUpTo_spec l).2.2 h

theorem escapeUtf8_chars {l : List Nat} (h : Utf8Chars l) :
    Utf8Chars (escapeUtf8 l) := by
  induction h with
  | nil => exact Utf8Chars.nil
  | @one b rest hb _ ih =>
    rw [escapeUtf8_cons_ne (by omega) rest]
    exact Utf8Chars.one hb ih
  | @two b b1 rest hb1 hb2 hc _ ih =>
    have hc' := isCont_iff.mp hc
    rw [escapeUtf8_cons_ne (by omega) (b1 :: rest),
      escapeUtf8_cons_ne (by omega) rest]
    exact Utf8Chars.two hb1 hb2 hc ih
  | @three b b1 b2 rest hb1 hb2 hc1 hc2 _ ih =>
    have hc1' := utf8Cont3_cont hc1
    have hc2' := isCont_iff.mp hc2
    by_cases hb : b = 0xee
    · subst hb
      rw [escapeUtf8_cons_ee, escapeUtf8_cons_ne (by omega) (b2 :: rest),
        escapeUtf8_cons_ne (by omega) rest]
      by_cases hne : need_escape b1 b2 = true
      · simp only [hne, if_true, List.cons_append, List.nil_append]
        exact Utf8Chars.three (by omega) (by omega) (by decide) (by decide)
          (Utf8Chars.three hb1 hb2 hc1 hc2 ih)
      · simp only [Bool.not_eq_true] at hne
        simp only [hne, Bool.false_eq_true, if_false, List.nil_append]
        exact Utf8Chars.three hb1 hb2 hc1 hc2 ih
    · rw [escapeUtf8_cons_ne hb (b1 :: b2 :: rest),
        escapeUtf8_cons_ne (by omega) (b2 :: rest),
        escapeUtf8_cons_ne (by omega) rest]
      exact Utf8Chars.three hb1 hb2 hc1 hc2 ih
  | @four b b1 b2 b3 rest hb1 hb2 hc1 hc2 hc3 _ ih =>
    have hc1' := utf8Cont4_cont hc1
    have hc2' := isCont_iff.mp hc2
    have hc3' := isCont_iff.mp hc3
    rw [escapeUtf8_cons_ne (by omega) (b1 :: b2 :: b3 :: rest),
      escapeUtf8_cons_ne (by omega) (b2 :: b3 :: rest),
      escapeUtf8_cons_ne (by omega) (b3 :: rest),
      escapeUtf8_cons_ne (by omega) rest]
    exact Utf8Chars.four hb1 hb2 hc1 hc2 hc3 ih

/-- Decoding inverts escaping: the backward scan over the escaped form of
a well-formed UTF-8 run reproduces the run and continues in normal state. -/
theorem decode_escape {s : List Nat} (h : Utf8Chars s) (t : List Nat) :
    str_to_bytes_go false (escapeUtf8 s ++ t) = s ++ str_to_bytes_go false t := by
  induction h with
  | nil => simp [escapeUtf8]
  | @one b rest hb _ ih =>
    have hbne : b ≠ 0xee := by omega
    rw [escapeUtf8_cons_ne hbne, List.cons_append, str_go_cons_ne hbne, ih,
      List.cons_append]
  | @two b b1 rest hb1 hb2 hc _ ih =>
    have hc' := isCont_iff.mp hc
    have hbne : b ≠ 0xee := by omega
    have hb1ne : b1 ≠ 0xee := by omega
    rw [escapeUtf8_cons_ne hbne, escapeUtf8_cons_ne hb1ne, List.cons_append,
      List.cons_append, str_go_cons_ne hbne, str_go_cons_ne hb1ne, ih,
      List.cons_append, List.cons_append]
  | @three b b1 b2 rest hb1 hb2 hc1 hc2 _ ih =>
    have hc1' := utf8Cont3_cont hc1
    have hc2' := isCont_iff.mp hc2
    have hb1ne : b1 ≠ 0xee := by omega
    have hb2ne : b2 ≠ 0xee := by omega
    by_cases hb : b = 0xee
    · subst hb
      rw [escapeUtf8_cons_ee, escapeUtf8_cons_ne hb1ne, escapeUtf8_cons_ne hb2ne]
      by_cases hne : need_escape b1 b2 = true
      · simp only [hne, if_true, List.cons_append, List.nil_append]
        rw [str_go_marker, str_go_esc_true hne, ih]
      · simp only [Bool.not_eq_true] at hne
        simp only [hne, Bool.false_eq_true, if_false, List.nil_append,
          List.cons_append]
        rw [str_go_ee_no_escape hne, str_go_cons_ne hb1ne, str_go_cons_ne hb2ne,
          ih]
    · rw [escapeUtf8_cons_ne hb, escapeUtf8_cons_ne hb1ne,
        escapeUtf8_cons_ne hb2ne, List.cons_append, List.cons_append,
        List.cons_append, str_go_cons_ne hb, str_go_cons_ne hb1ne,
        str_go_cons_ne hb2ne, ih, List.cons_append, List.cons_append,
        List.cons_append]
  | @four b b1 b2 b3 rest hb1 hb2 hc1 hc2 hc3 _ ih =>
    have hc1' := utf8Cont4_cont hc1
    have hc2' := isCont_iff.mp hc2
    have hc3' := isCont_iff.mp hc3
    have hbne : b ≠ 0xee := by omega
    have hb1ne : b1 ≠ 0xee := by omega
    have hb2ne : b2 ≠ 0xee := by omega
    have hb3ne : b3 ≠ 0xee := by omega
    rw [escapeUtf8_cons_ne hbne, escapeUtf8_cons_ne hb1ne,
      escapeUtf8_cons_ne hb2ne, escapeUtf8_cons_ne hb3ne, List.cons_append,
      List.cons_append, List.cons_append, List.cons_append,
      str_go_cons_ne hbne, str_go_cons_ne hb1ne, str_go_cons_ne hb2ne,
      str_go_cons_ne hb3ne, ih, List.cons_append, List.cons_append,
      List.cons_append, List.cons_append]

set_option maxRecDepth 4000 in
/-- Arithmetic facts about the 3-byte unit `bytes_to_str` emits for an
invalid byte `b` in `0x80..=0xFF`. -/
theorem enc_byte_facts : ∀ b : Nat, b < 256 → 0x80 ≤ b →
    need_escape (0xbe + ((b ^^^ 128) >>> 6)) ((b ||| 0x40) ^^^ 0x40) = true ∧
    (0xbe + ((b ^^^ 128) >>> 6)) ≠ 0xbc ∧
    ((((0xbe + ((b ^^^ 128) >>> 6)) &&& 3) <<< 6) |||
      (((b ||| 0x40) ^^^ 0x40) &&& 63)) = b ∧
    [0xee, 0xbe + ((b ^^^ 128) >>> 6), (b ||| 0x40) ^^^ 0x40] =
      utf8Encode3 (0xEF80 + (b - 0x80)) ∧
    isCont (0xbe + ((b ^^^ 128) >>> 6)) = true ∧
    isCont ((b ||| 0x40) ^^^ 0x40) = true := by decide

/-- Decoding inverts the reserved-band unit emitted for an invalid byte. -/
theorem str_go_unit {b : Nat} (h1 : b < 256) (h2 : 0x80 ≤ b) (l : List Nat) :
    str_to_bytes_go false
      (0xee :: (0xbe + ((b ^^^ 128) >>> 6)) :: ((b ||| 0x40) ^^^ 0x40) :: l) =
      b :: str_to_bytes_go false l := by
  obtain ⟨f1, f2, f3, f4, f5, f6⟩ := enc_byte_facts b h1 h2
  rw [str_go_band f1 f2, f3]

theorem getD_mem_of_lt {l : List Nat} {n : Nat} (h : n < l.length) :
    l.getD n 0 ∈ l := by
  rw [List.getD_eq_getElem l 0 h]
  exact List.getElem_mem h

theorem forall_ne_of_contains_false {l : List Nat}
    (h : l.contains 0xee = false) : ∀ x ∈ l, x ≠ 0xee := by
  intro x hx he
  subst he
  exact not_mem_of_contains_false h hx

theorem bytes_to_str_go_eq_valid {rest : List Nat}
    (hval : validUpTo rest = rest.length) :
    bytes_to_str_go rest = escapeUtf8 rest := by
  by_cases hnil : rest = []
  · subst hnil
    unfold bytes_to_str_go
    simp [escapeUtf8]
  · unfold bytes_to_str_go
    rw [dif_neg hnil, if_pos hval]

theorem bytes_to_str_go_eq_invalid {rest : List Nat}
    (hval : ¬ validUpTo rest = rest.length) :
    bytes_to_str_go rest =
      escapeUtf8 (rest.take (validUpTo rest)) ++
        [0xee, 0xbe + ((rest.getD (validUpTo rest) 0 ^^^ 128) >>> 6),
          (rest.getD (validUpTo rest) 0 ||| 0x40) ^^^ 0x40] ++
        bytes_to_str_go (rest.drop (validUpTo rest + 1)) := by
  have hnil : rest ≠ [] := by
    intro e
    subst e
    exact hval rfl
  conv_lhs => unfold bytes_to_str_go
  rw [dif_neg hnil, if_neg hval]

/-- The accumulator form of the encode loop equals the accumulator-free
form appended to the accumulated prefix. -/
theorem loop_eq_go (rest result : List Nat) :
    bytes_to_str_loop rest result = result ++ bytes_to_str_go rest := by
  by_cases hnil : rest = []
  · subst hnil
    unfold bytes_to_str_loop bytes_to_str_go
    simp
  · by_cases hval : validUpTo rest = rest.length
    · rw [bytes_to_str_go_eq_valid hval]
      unfold bytes_to_str_loop
      rw [dif_neg hnil, if_pos hval]
      by_cases hz : result = [] ∧ rest.contains 0xee = false
      · rw [if_pos hz]
        obtain ⟨hz1, hz2⟩ := hz
        subst hz1
        rw [List.nil_append, escapeUtf8_eq_self (forall_ne_of_contains_false hz2)]
      · rw [if_neg hz]
        rfl
    · rw [bytes_to_str_go_eq_invalid hval]
      unfold bytes_to_str_loop
      rw [dif_neg hnil, if_neg hval]
      rw [loop_eq_go]
      simp [extend_escaped_utf8, List.append_assoc]
termination_by rest.length
decreasing_by
  simp only [List.length_drop]
  have hp : 0 < rest.length := List.length_pos.mpr hnil
  omega

/-- The main engine of the round trip: decoding the encoded form of any
byte suffix, followed by anything, yields the suffix followed by the
decoding of the remainder. -/
theorem decode_encode_go (rest : List Nat) (hb : ∀ x ∈ rest, x < 256)
    (t : List Nat) :
    str_to_bytes_go false (bytes_to_str_go rest ++ t) =
      rest ++ str_to_bytes_go false t := by
  by_cases hnil : rest = []
  · subst hnil
    rw [show bytes_to_str_go ([] : List Nat) = escapeUtf8 [] from
      bytes_to_str_go_eq_valid rfl]
    simp [escapeUtf8]
  · by_cases hval : validUpTo rest = rest.length
    · have hchars : Utf8Chars rest := by
        have h := utf8Chars_take rest
        rwa [hval, List.take_length] at h
      rw [bytes_to_str_go_eq_valid hval]
      exact decode_escape hchars t
    · have hlt : validUpTo rest < rest.length :=
        lt_of_le_of_ne (validUpTo_le rest) hval
      have hb80 : 0x80 ≤ rest.getD (validUpTo rest) 0 := validUpTo_getD hlt
      have hb256 : rest.getD (validUpTo rest) 0 < 256 :=
        hb _ (getD_mem_of_lt hlt)
      rw [bytes_to_str_go_eq_invalid hval, List.append_assoc, List.append_assoc,
        decode_escape (utf8Chars_take rest)]
      simp only [List.cons_append, List.nil_append]
      rw [str_go_unit hb256 hb80,
        decode_encode_go (rest.drop (validUpTo rest + 1))
          (fun x hx => hb x (List.mem_of_mem_drop hx)) t]
      conv_rhs => rw [← List.take_append_drop (validUpTo rest) rest,
        List.drop_eq_getElem_cons hlt]
      rw [List.getD_eq_getElem rest 0 hlt]
      simp only [List.append_assoc, List.cons_append]
termination_by rest.length
decreasing_by
  simp only [List.length_drop]
  omega

theorem bytes_to_str_eq_go (data : List Nat) :
    bytes_to_str data = bytes_to_str_go data := by
  have h := loop_eq_go data []
  simpa [bytes_to_str] using h

/-- The encoded form of any byte sequence is well-formed UTF-8. -/
theorem bytes_to_str_go_chars (rest : List Nat) (hb : ∀ x ∈ rest, x < 256) :
    Utf8Chars (bytes_to_str_go rest) := by
  by_cases hval : validUpTo rest = rest.length
  · rw [bytes_to_str_go_eq_valid hval]
    refine escapeUtf8_chars ?_
    have h := utf8Chars_take rest
    rwa [hval, List.take_length] at h
  · have hlt : validUpTo rest < rest.length :=
      lt_of_le_of_ne (validUpTo_le rest) hval
    have hb80 := validUpTo_getD hlt
    have hb256 := hb _ (getD_mem_of_lt hlt)
    obtain ⟨f1, f2, f3, f4, f5, f6⟩ := enc_byte_facts _ hb256 hb80
    rw [bytes_to_str_go_eq_invalid hval, List.append_assoc]
    refine Utf8Chars.append (escapeUtf8_chars (utf8Chars_take rest)) ?_
    simp only [List.cons_append, List.nil_append]
    refine Utf8Chars.three (by omega) (by omega) ?_ f6
      (bytes_to_str_go_chars _ (fun x hx => hb x (List.mem_of_mem_drop hx)))
    unfold utf8Cont3
    rw [if_neg (by omega), if_neg (by omega)]
    exact f5
termination_by rest.length
decreasing_by
  simp only [List.length_drop]
  omega

/-- In escaped state, a position that does not carry a reserved 3-byte
unit behaves exactly like normal state. -/
theorem str_go_true_eq {t : List Nat}
    (h : t.getD 0 0 = 0xee → need_escape (t.getD 1 0) (t.getD 2 0) = false) :
    str_to_bytes_go true t = str_to_bytes_go false t := by
  match t with
  | [] => rfl
  | b :: rest =>
    by_cases hb : b = 0xee
    · subst hb
      match rest with
      | [] => rfl
      | [b1] => rfl
      | b1 :: b2 :: rest2 =>
        have hne : need_escape b1 b2 = false := by simpa using h rfl
        rw [str_go_ee_no_escape hne, str_go_ee_no_escape hne]
    · rw [str_go_cons_ne hb, str_go_cons_ne hb]

theorem escapeUtf8_no_pattern {l : List Nat} (h : hasEscapePattern l = false) :
    escapeUtf8 l = l := by
  induction l with
  | nil => rfl
  | cons b rest ih =>
    simp only [hasEscapePattern, Bool.or_eq_false_iff] at h
    obtain ⟨h1, h2⟩ := h
    have hrest := ih h2
    by_cases hb : b = 0xee
    · subst hb
      cases rest with
      | nil => rfl
      | cons b1 rest1 =>
        cases rest1 with
        | nil =>
          rw [show escapeUtf8 [0xee, b1] = 0xee :: escapeUtf8 [b1] from rfl, hrest]
        | cons b2 rest2 =>
          have hne2 : need_escape b1 b2 = false := by simpa using h1
          rw [escapeUtf8_cons_ee, if_neg (by simp [hne2]), List.nil_append, hrest]
    · rw [escapeUtf8_cons_ne hb, hrest]

/-! ### The claims -/

/-- Claim C1: for every byte sequence B, decoding the encoding of B
returns B exactly: `str_to_bytes (bytes_to_str B) = B`, with no loss for
any input, including invalid UTF-8 and inputs already containing U+EF00
or U+EF80..U+EFFF. -/
theorem spec_C1 (B : List Nat) (hB : ∀ x ∈ B, x < 256) :
    str_to_bytes (bytes_to_str B) = B := by
  have hgo : str_to_bytes_go false (bytes_to_str_go B) = B := by
    have h := decode_encode_go B hB []
    rw [List.append_nil, show str_to_bytes_go false [] = [] from rfl,
      List.append_nil] at h
    exact h
  rw [bytes_to_str_eq_go]
  unfold str_to_bytes
  by_cases hc : (bytes_to_str_go B).contains 0xee = false
  · rw [if_pos hc]
    exact (str_go_eq_self false (forall_ne_of_contains_false hc)).symm.trans hgo
  · rw [if_neg hc]
    exact hgo

theorem spec_C1_witness :
    str_to_bytes (bytes_to_str [0xff, 0x61, 0xee, 0x80, 0x80]) =
      [0xff, 0x61, 0xee, 0x80, 0x80] :=
  spec_C1 [0xff, 0x61, 0xee, 0x80, 0x80] (by decide)

/-- Claim C2: both operations are total.  The scan loop of
`bytes_to_str` makes progress: whenever UTF-8 interpretation of the
remaining suffix fails (`validUpTo` is short of the length), dropping
the valid prefix plus the single failing byte strictly shrinks the
suffix; and both functions are defined (return a value) on every
input — there is no failure path. -/
theorem spec_C2 :
    (∀ rest : List Nat, validUpTo rest < rest.length →
      (rest.drop (validUpTo rest + 1)).length < rest.length) ∧
    (∀ data : List Nat, ∃ s, bytes_to_str data = s) ∧
    (∀ data : List Nat, ∃ b, str_to_bytes data = b) := by
  refine ⟨fun rest h => ?_, fun data => ⟨_, rfl⟩, fun data => ⟨_, rfl⟩⟩
  simp only [List.length_drop]
  omega

theorem spec_C2_witness :
    (([0xff, 0x41] : List Nat).drop (validUpTo [0xff, 0x41] + 1)).length <
      ([0xff, 0x41] : List Nat).length :=
  spec_C2.1 [0xff, 0x41] (by decide)

/-- Claim C3: for every input byte sequence the bytes accumulated by
`bytes_to_str` form well-formed UTF-8, so the unchecked conversion is
sound and the checked conversion in debug builds cannot fail. -/
theorem spec_C3 (B : List Nat) (hB : ∀ x ∈ B, x < 256) :
    Utf8Chars (bytes_to_str B) ∧
      validUpTo (bytes_to_str B) = (bytes_to_str B).length := by
  rw [bytes_to_str_eq_go]
  have hchars := bytes_to_str_go_chars B hB
  exact ⟨hchars, hchars.validUpTo_eq⟩

theorem spec_C3_witness :
    Utf8Chars (bytes_to_str [0xff, 0x41]) ∧
      validUpTo (bytes_to_str [0xff, 0x41]) =
        (bytes_to_str [0xff, 0x41]).length :=
  spec_C3 [0xff, 0x41] (by decide)

set_option maxRecDepth 4000 in
theorem lor_one_iff : ∀ b1 : Nat, b1 < 256 →
    ((b1 ||| 1) = 0xbf ↔ (b1 = 0xbe ∨ b1 = 0xbf)) := by decide

set_option maxRecDepth 4000 in
theorem cont_and63 : ∀ b : Nat, b < 256 → isCont b = true →
    b &&& 63 = b - 0x80 := by decide

set_option maxRecDepth 4000 in
theorem lor_decomp : ∀ x : Nat, x < 64 → ∀ y : Nat, y < 64 →
    ((0xE000 : Nat) ||| (x <<< 6) ||| y) = 0xE000 + 64 * x + y := by decide

theorem utf8Decode3_cont {b1 b2 : Nat} (h1 : b1 < 256) (h2 : b2 < 256)
    (hc1 : isCont b1 = true) (hc2 : isCont b2 = true) :
    utf8Decode3 b1 b2 = 0xE000 + 64 * (b1 - 0x80) + (b2 - 0x80) := by
  have e1 := cont_and63 b1 h1 hc1
  have e2 := cont_and63 b2 h2 hc2
  have hb1 := isCont_iff.mp hc1
  have hb2 := isCont_iff.mp hc2
  unfold utf8Decode3
  rw [show ((0xee : Nat) &&& 0xf) <<< 12 = 0xE000 from rfl, e1, e2,
    lor_decomp (b1 - 0x80) (by omega) (b2 - 0x80) (by omega)]

theorem need_escape_iff_decode {b1 b2 : Nat} (h1 : b1 < 256) (h2 : b2 < 256) :
    need_escape b1 b2 = true ↔
      (isCont b1 = true ∧ isCont b2 = true ∧
        (utf8Decode3 b1 b2 = 0xEF00 ∨
          (0xEF80 ≤ utf8Decode3 b1 b2 ∧ utf8Decode3 b1 b2 ≤ 0xEFFF))) := by
  constructor
  · intro h
    rcases need_escape_iff.mp h with ⟨ha, hb⟩ | ⟨ha, hb, hc⟩
    · subst ha
      subst hb
      exact ⟨by decide, by decide, Or.inl (by decide)⟩
    · have hcb1 : isCont b1 = true := by
        rcases (lor_one_iff b1 h1).mp ha with rfl | rfl <;> decide
      have hcb2 : isCont b2 = true := isCont_iff.mpr ⟨hb, hc⟩
      refine ⟨hcb1, hcb2, ?_⟩
      rw [utf8Decode3_cont h1 h2 hcb1 hcb2]
      rcases (lor_one_iff b1 h1).mp ha with rfl | rfl
      · exact Or.inr (by constructor <;> omega)
      · exact Or.inr (by constructor <;> omega)
  · rintro ⟨hcb1, hcb2, hdec⟩
    rw [utf8Decode3_cont h1 h2 hcb1 hcb2] at hdec
    have hb1 := isCont_iff.mp hcb1
    have hb2 := isCont_iff.mp hcb2
    apply need_escape_iff.mpr
    rcases hdec with heq | ⟨hge, hle⟩
    · exact Or.inl (by constructor <;> omega)
    · refine Or.inr ⟨(lor_one_iff b1 h1).mpr (by omega), hb2.1, hb2.2⟩

set_option maxRecDepth 20000 in
/-- Claim C4: `need_escape b1 b2` holds exactly when `[0xEE, b1, b2]` is
the UTF-8 encoding of U+EF00 or of a codepoint in U+EF80..U+EFFF (the
bytes are continuations and the decoded codepoint is the marker or in
the band); and the escape scanner inserts U+EF00 (bytes `EE BC 80`)
immediately before every matching 3-byte unit, copying the unit
unchanged, while every byte not starting a matching unit is copied
unchanged. -/
theorem spec_C4 :
    (∀ b1 : Nat, b1 < 256 → ∀ b2 : Nat, b2 < 256 →
      (need_escape b1 b2 = true ↔
        (isCont b1 = true ∧ isCont b2 = true ∧
          (utf8Decode3 b1 b2 = 0xEF00 ∨
            (0xEF80 ≤ utf8Decode3 b1 b2 ∧ utf8Decode3 b1 b2 ≤ 0xEFFF))))) ∧
    (∀ b1 b2 : Nat, ∀ s : List Nat, need_escape b1 b2 = true →
      escapeUtf8 (0xee :: b1 :: b2 :: s) =
        0xee :: 0xbc :: 0x80 :: 0xee :: b1 :: b2 :: escapeUtf8 s) ∧
    (∀ b1 b2 : Nat, ∀ s : List Nat, need_escape b1 b2 = false →
      escapeUtf8 (0xee :: b1 :: b2 :: s) = 0xee :: escapeUtf8 (b1 :: b2 :: s)) ∧
    (∀ b : Nat, ∀ s : List Nat, b ≠ 0xee →
      escapeUtf8 (b :: s) = b :: escapeUtf8 s) := by
  refine ⟨fun b1 h1 b2 h2 => need_escape_iff_decode h1 h2,
    fun b1 b2 s h => ?_, fun b1 b2 s h => ?_,
    fun b s h => escapeUtf8_cons_ne h s⟩
  · obtain ⟨h1, h2⟩ := need_escape_ne_ee h
    rw [escapeUtf8_cons_ee, if_pos h, escapeUtf8_cons_ne h1,
      escapeUtf8_cons_ne h2]
    rfl
  · rw [escapeUtf8_cons_ee, if_neg (by simp [h]), List.nil_append]

theorem spec_C4_witness :
    escapeUtf8 (0xee :: 0xbf :: 0xbf :: []) =
      0xee :: 0xbc :: 0x80 :: 0xee :: 0xbf :: 0xbf :: escapeUtf8 [] :=
  spec_C4.2.1 0xbf 0xbf [] (by decide)

/-- Claim C5: when UTF-8 interpretation of the remaining input fails at
offset L, the failing byte b at offset L is in 0x80..0xFF, and
`bytes_to_str` emits for it exactly the codepoint `0xEF80 + (b - 0x80)`
(as 3 UTF-8 bytes) after the escaped valid prefix, then continues past
that single byte; in particular `bytes_to_str [0xFF]` is the single
codepoint U+EFFF. -/
theorem spec_C5 :
    (∀ rest : List Nat, (∀ x ∈ rest, x < 256) →
      validUpTo rest < rest.length →
      0x80 ≤ rest.getD (validUpTo rest) 0 ∧
        rest.getD (validUpTo rest) 0 < 256 ∧
        ∀ result : List Nat,
          bytes_to_str_loop rest result =
            bytes_to_str_loop (rest.drop (validUpTo rest + 1))
              (extend_escaped_utf8 (rest.take (validUpTo rest)) result ++
                utf8Encode3 (0xEF80 + (rest.getD (validUpTo rest) 0 - 0x80)))) ∧
    bytes_to_str [0xff] = utf8Encode3 0xEFFF := by
  constructor
  · intro rest hb hlt
    have hb80 := validUpTo_getD hlt
    have hb256 := hb _ (getD_mem_of_lt hlt)
    refine ⟨hb80, hb256, fun result => ?_⟩
    obtain ⟨f1, f2, f3, f4, f5, f6⟩ := enc_byte_facts _ hb256 hb80
    have hnil : rest ≠ [] := by
      intro e
      subst e
      simp at hlt
    conv_lhs => unfold bytes_to_str_loop
    rw [dif_neg hnil, if_neg (by omega), ← f4]
  · rw [bytes_to_str_eq_go, bytes_to_str_go_eq_invalid (by decide),
      show ([0xff] : List Nat).drop (validUpTo [0xff] + 1) = [] from rfl,
      show bytes_to_str_go ([] : List Nat) = escapeUtf8 [] from
        bytes_to_str_go_eq_valid rfl]
    decide

theorem spec_C5_witness :
    0x80 ≤ ([0xff] : List Nat).getD (validUpTo [0xff]) 0 ∧
      bytes_to_str_loop [0xff] [] =
        bytes_to_str_loop (([0xff] : List Nat).drop (validUpTo [0xff] + 1))
          (extend_escaped_utf8 (([0xff] : List Nat).take (validUpTo [0xff])) [] ++
            utf8Encode3 (0xEF80 + (([0xff] : List Nat).getD (validUpTo [0xff]) 0 -
              0x80))) :=
  ⟨(spec_C5.1 [0xff] (by decide) (by decide)).1,
    (spec_C5.1 [0xff] (by decide) (by decide)).2.2 []⟩

set_option maxRecDepth 8000 in
/-- Claim C6: for every byte value v in 0x80..0xFF, decoding the single
unescaped codepoint `0xEF80 + (v - 0x80)` yields the one-byte sequence
`[v]` (the inverse affine mapping). -/
theorem spec_C6 : ∀ v : Nat, v < 256 → 0x80 ≤ v →
    str_to_bytes (utf8Encode3 (0xEF80 + (v - 0x80))) = [v] := by decide

theorem spec_C6_witness :
    str_to_bytes (utf8Encode3 (0xEF80 + (0xff - 0x80))) = [0xff] :=
  spec_C6 0xff (by decide) (by decide)

set_option maxRecDepth 8000 in
/-- Claim C7: for every codepoint C that is U+EF00 or lies in
U+EF80..U+EFFF, decoding U+EF00 followed by C yields exactly the 3 raw
UTF-8 bytes of C. -/
theorem spec_C7 : ∀ c : Nat, (c = 0xEF00 ∨ (0xEF80 ≤ c ∧ c ≤ 0xEFFF)) →
    str_to_bytes (utf8Encode3 0xEF00 ++ utf8Encode3 c) = utf8Encode3 c := by
  have hband : ∀ v : Nat, v < 128 →
      str_to_bytes (utf8Encode3 0xEF00 ++ utf8Encode3 (0xEF80 + v)) =
        utf8Encode3 (0xEF80 + v) := by decide
  intro c hc
  rcases hc with rfl | ⟨h1, h2⟩
  · decide
  · have he : c = 0xEF80 + (c - 0xEF80) := by omega
    rw [he]
    exact hband (c - 0xEF80) (by omega)

theorem spec_C7_witness :
    str_to_bytes (utf8Encode3 0xEF00 ++ utf8Encode3 0xEFFF) =
      utf8Encode3 0xEFFF :=
  spec_C7 0xEFFF (by decide)

/-- Claim C8: an escape marker U+EF00 (bytes `EE BC 80`) that is not
immediately followed by a reserved-band or marker codepoint — including
a marker at the end of the input — contributes zero bytes to the output
and the remaining bytes are decoded under the normal rules; in
particular decoding the marker followed by "abc" yields the bytes of
"abc". -/
theorem spec_C8 :
    (∀ t : List Nat,
      (t.getD 0 0 = 0xee → need_escape (t.getD 1 0) (t.getD 2 0) = false) →
      str_to_bytes_go false (0xee :: 0xbc :: 0x80 :: t) =
        str_to_bytes_go false t) ∧
    str_to_bytes (0xee :: 0xbc :: 0x80 :: [0x61, 0x62, 0x63]) =
      [0x61, 0x62, 0x63] := by
  refine ⟨fun t ht => ?_, by decide⟩
  rw [str_go_marker]
  exact str_go_true_eq ht

theorem spec_C8_witness :
    str_to_bytes_go false (0xee :: 0xbc :: 0x80 :: [0x61, 0x62, 0x63]) =
      str_to_bytes_go false [0x61, 0x62, 0x63] :=
  spec_C8.1 [0x61, 0x62, 0x63] (by decide)

/-- Claim C9: if B is well-formed UTF-8 and contains no 0xEE byte,
`bytes_to_str B` equals B exactly (taken on the first scan, without
transformation). -/
theorem spec_C9 (B : List Nat) (h1 : validUpTo B = B.length)
    (h2 : B.contains 0xee = false) : bytes_to_str B = B := by
  unfold bytes_to_str
  by_cases hnil : B = []
  · subst hnil
    unfold bytes_to_str_loop
    simp
  · conv_lhs => unfold bytes_to_str_loop
    rw [dif_neg hnil, if_pos h1, if_pos ⟨rfl, h2⟩]

theorem spec_C9_witness : bytes_to_str [0x61, 0x62, 0x63] = [0x61, 0x62, 0x63] :=
  spec_C9 [0x61, 0x62, 0x63] (by decide) (by decide)

/-- Claim C10: the identity extends beyond the zero-copy condition: if B
is well-formed UTF-8 and contains no occurrence of `0xEE` followed by
two bytes satisfying `need_escape` — i.e. no codepoint U+EF00 and none
in U+EF80..U+EFFF — then `bytes_to_str B` equals B as a value, even when
B contains the byte 0xEE as part of other codepoints. -/
theorem spec_C10 (B : List Nat) (h1 : validUpTo B = B.length)
    (h2 : hasEscapePattern B = false) : bytes_to_str B = B := by
  rw [bytes_to_str_eq_go, bytes_to_str_go_eq_valid h1,
    escapeUtf8_no_pattern h2]

theorem spec_C10_witness : bytes_to_str [0xee, 0xbc, 0x81] = [0xee, 0xbc, 0x81] :=
  spec_C10 [0xee, 0xbc, 0x81] (by decide) (by decide)

